import Mathlib

/-!
Shallow embedding of the timeline-composition and caption core of the
ffmpeg-api repository (src/index.js and its historical variants), together
with proofs about the embedded functions.  All timeline arithmetic is done
in `ℚ`: the JavaScript source computes with IEEE doubles, which we model as
exact rationals.
-/

/-- Truncation toward zero, as performed by the JavaScript `%` operator on
its operands' quotient (`a % b = a - b * trunc (a / b)`). -/
def jstrunc (q : ℚ) : ℤ :=
  if 0 ≤ q then ⌊q⌋ else ⌈q⌉

/-- JavaScript / ffmpeg `mod`: `a % b = a - b * trunc (a / b)`. -/
def jsmod (a b : ℚ) : ℚ :=
  a - b * jstrunc (a / b)

/-- JavaScript `String.prototype.padStart(n, c)`: prepend copies of `c`
until the length is at least `n`. -/
def padStart (s : String) (n : Nat) (c : Char) : String :=
  String.mk (List.replicate (n - s.length) c) ++ s

/-- JavaScript `Array.prototype.join(sep)` on a list of strings. -/
def joinSep (sep : String) : List String → String
  | [] => ""
  | [a] => a
  | a :: rest => a ++ sep ++ joinSep sep rest

/-- `calculateInsertionPoints` from src/index.js (identical in both Lambda
variants of part_003): evenly spaced cutaway offsets inside the window that
excludes a 3 s start buffer and a 3 s end buffer.  The JS loop pushes
`startBuffer + interval * i` for `i = 1 .. count`. -/
def calculateInsertionPoints (totalDuration : ℚ) (count : ℕ) : List ℚ :=
  let startBuffer : ℚ := 3
  let endBuffer : ℚ := 3
  let usableDuration := totalDuration - startBuffer - endBuffer
  let interval := usableDuration / ((count : ℚ) + 1)
  (List.range count).map fun (i : ℕ) => startBuffer + interval * ((i : ℚ) + 1)

theorem calculateInsertionPoints_length (totalDuration : ℚ) (count : ℕ) :
    (calculateInsertionPoints totalDuration count).length = count := by
  unfold calculateInsertionPoints
  rw [List.length_map, List.length_range]

/-- C2: for every `totalDuration > startBuffer + endBuffer` (= 6) and every
`count ≥ 0`, the scheduler returns exactly `count` points, point `i`
(1-indexed) being `startBuffer + (usable / (count + 1)) * i`, strictly
increasing and strictly inside `(startBuffer, totalDuration - endBuffer)`;
in particular `totalDuration = 30`, `count = 2` yields `[11, 19]`. -/
theorem calculateInsertionPoints_spec :
    (∀ (totalDuration : ℚ) (count : ℕ), 6 < totalDuration →
      (calculateInsertionPoints totalDuration count).length = count ∧
      (∀ i : ℕ, i < count →
        (calculateInsertionPoints totalDuration count)[i]? =
          some (3 + (totalDuration - 3 - 3) / ((count : ℚ) + 1) * ((i : ℚ) + 1))) ∧
      (calculateInsertionPoints totalDuration count).Pairwise (· < ·) ∧
      (∀ p ∈ calculateInsertionPoints totalDuration count,
        3 < p ∧ p < totalDuration - 3)) ∧
    calculateInsertionPoints 30 2 = [11, 19] := by
  constructor
  · intro totalDuration count h
    have husable : (0:ℚ) < totalDuration - 3 - 3 := by linarith
    have hcp : (0:ℚ) < (count : ℚ) + 1 := by positivity
    have hinterval : 0 < (totalDuration - 3 - 3) / ((count : ℚ) + 1) :=
      div_pos husable hcp
    refine ⟨calculateInsertionPoints_length _ _, ?_, ?_, ?_⟩
    · intro i hi
      unfold calculateInsertionPoints
      simp [List.getElem?_map, List.getElem?_range, hi]
    · unfold calculateInsertionPoints
      rw [List.pairwise_map]
      refine (List.pairwise_lt_range count).imp ?_
      intro a b hab
      have hab' : (a : ℚ) + 1 < (b : ℚ) + 1 := by exact_mod_cast Nat.succ_lt_succ hab
      have := mul_lt_mul_of_pos_left hab' hinterval
      linarith
    · intro p hp
      unfold calculateInsertionPoints at hp
      simp only [List.mem_map, List.mem_range] at hp
      obtain ⟨i, hi, rfl⟩ := hp
      constructor
      · have : 0 < (totalDuration - 3 - 3) / ((count : ℚ) + 1) * ((i : ℚ) + 1) :=
          mul_pos hinterval (by positivity)
        linarith
      · have h1 : (i : ℚ) + 1 ≤ (count : ℚ) := by exact_mod_cast Nat.succ_le_of_lt hi
        have h2 : (totalDuration - 3 - 3) / ((count : ℚ) + 1) * ((i : ℚ) + 1) ≤
            (totalDuration - 3 - 3) / ((count : ℚ) + 1) * (count : ℚ) :=
          mul_le_mul_of_nonneg_left h1 hinterval.le
        have h3 : (totalDuration - 3 - 3) / ((count : ℚ) + 1) * (count : ℚ) <
            totalDuration - 3 - 3 := by
          rw [div_mul_eq_mul_div, div_lt_iff₀ hcp]
          nlinarith
        linarith
  · simp [calculateInsertionPoints, List.range_succ]
    norm_num

theorem calculateInsertionPoints_spec_witness :
    6 < (30:ℚ) ∧ (calculateInsertionPoints 30 2).length = 2 ∧
      (calculateInsertionPoints 30 2)[0]? =
        some (3 + ((30:ℚ) - 3 - 3) / (((2:ℕ) : ℚ) + 1) * (((0:ℕ) : ℚ) + 1)) :=
  ⟨by norm_num, (calculateInsertionPoints_spec.1 30 2 (by norm_num)).1,
    (calculateInsertionPoints_spec.1 30 2 (by norm_num)).2.1 0 (by norm_num)⟩

/-- C3 counterexample: with `totalDuration = 4` and `count = 1` the usable
window is `-2 ≤ 0`, yet the scheduler does not fail: it returns the
one-element list `[2]`.  There is no `InvalidDurationError` (or any other
failure path) anywhere in `calculateInsertionPoints`. -/
theorem calculateInsertionPoints_no_failure :
    calculateInsertionPoints 4 1 = [2] ∧ (4:ℚ) - 3 - 3 ≤ 0 := by
  constructor
  · simp [calculateInsertionPoints, List.range_succ]
    norm_num
  · norm_num

/-- C3 amended: when the usable window `totalDuration - 3 - 3` is `≤ 0` and
`count ≥ 1`, the scheduler does not fail with an `InvalidDurationError`;
it still returns exactly `count` points, all of them `≤ startBuffer = 3`
(hence outside the open usable window), and the caller goes on to invoke
the composer with them. -/
theorem calculateInsertionPoints_usable_nonpos (totalDuration : ℚ) (count : ℕ)
    (h : totalDuration - 3 - 3 ≤ 0) (hc : 1 ≤ count) :
    (calculateInsertionPoints totalDuration count).length = count ∧
    ∀ p ∈ calculateInsertionPoints totalDuration count, p ≤ 3 := by
  refine ⟨calculateInsertionPoints_length _ _, ?_⟩
  intro p hp
  unfold calculateInsertionPoints at hp
  simp only [List.mem_map, List.mem_range] at hp
  obtain ⟨i, hi, rfl⟩ := hp
  have hI : (totalDuration - 3 - 3) / ((count : ℚ) + 1) ≤ 0 :=
    div_nonpos_of_nonpos_of_nonneg h (by positivity)
  have hi1 : (0:ℚ) ≤ (i : ℚ) + 1 := by positivity
  nlinarith

theorem calculateInsertionPoints_usable_nonpos_witness :
    (4:ℚ) - 3 - 3 ≤ 0 ∧ (calculateInsertionPoints 4 1).length = 1 :=
  ⟨by norm_num,
    (calculateInsertionPoints_usable_nonpos 4 1 (by norm_num) (by norm_num)).1⟩

/-- A downloaded cutaway clip, as built by `getRandomBrollClips`:
`{ localPath, duration, key }`. -/
structure BrollClip where
  localPath : String
  duration : ℚ
  key : String
deriving DecidableEq

/-- The `type` tag of a timeline segment: `'avatar'` or `'broll'`. -/
inductive SegKind where
  | avatar
  | broll
deriving DecidableEq

/-- One timeline segment, as pushed by `buildSegments` in
src/unnamed/part_003: `{ type, input, start, duration }`. -/
structure Segment where
  type : SegKind
  input : String
  start : ℚ
  duration : ℚ
deriving DecidableEq

/-- The loop body of `buildSegments` (src/unnamed/part_003,
lines 232-274), with the mutable `currentTime` cursor made an explicit
argument.  The JS loop walks `insertionPoints[i]` together with
`brollClips[i]`; the paired traversal is modelled by recursing on the
zipped list.  `buildAndExtractVideoSegments` (lines 631-680) performs the
same duration arithmetic (`if (avatarDuration > 0)` is the same test as
`insertAt > currentTime`), so this one embedding covers both.  After the
loop, a trailing avatar segment is emitted when `currentTime <
totalDuration`. -/
def buildSegmentsAux (avatarVideo : String) (totalDuration : ℚ) :
    ℚ → List (ℚ × BrollClip) → List Segment
  | currentTime, [] =>
    if currentTime < totalDuration then
      [{ type := .avatar, input := avatarVideo, start := currentTime,
         duration := totalDuration - currentTime }]
    else []
  | currentTime, (insertAt, broll) :: rest =>
    let brollDuration := min broll.duration 4
    (if insertAt > currentTime then
      [{ type := .avatar, input := avatarVideo, start := currentTime,
         duration := insertAt - currentTime }]
     else []) ++
    { type := .broll, input := broll.localPath, start := 0,
      duration := brollDuration } ::
    buildSegmentsAux avatarVideo totalDuration (insertAt + brollDuration) rest

/-- `buildSegments(avatarVideo, brollClips, insertionPoints, totalDuration)`
from src/unnamed/part_003: cursor starts at 0 and the cap
`maxBrollDuration = 4` is applied to every cutaway. -/
def buildSegments (avatarVideo : String) (brollClips : List BrollClip)
    (insertionPoints : List ℚ) (totalDuration : ℚ) : List Segment :=
  buildSegmentsAux avatarVideo totalDuration 0 (insertionPoints.zip brollClips)

/-- Total duration of a segment plan. -/
def segmentsTotalDuration (segments : List Segment) : ℚ :=
  (segments.map Segment.duration).sum

/-- The spec's data-model invariant on insertion points ("ordered and
pairwise non-overlapping after duration capping"), relative to a cursor:
every insertion point lies at or after the cursor left by the previous
cutaway, and the final cursor still fits inside the timeline. -/
def fitsTimeline (currentTime totalDuration : ℚ) :
    List (ℚ × BrollClip) → Bool
  | [] => currentTime ≤ totalDuration
  | (insertAt, broll) :: rest =>
    currentTime ≤ insertAt &&
      fitsTimeline (insertAt + min broll.duration 4) totalDuration rest

theorem buildSegmentsAux_sum (avatarVideo : String) (totalDuration : ℚ) :
    ∀ (l : List (ℚ × BrollClip)) (currentTime : ℚ),
      fitsTimeline currentTime totalDuration l = true →
      segmentsTotalDuration (buildSegmentsAux avatarVideo totalDuration currentTime l) =
        totalDuration - currentTime := by
  intro l
  induction l with
  | nil =>
    intro currentTime hfit
    simp only [fitsTimeline, decide_eq_true_eq] at hfit
    by_cases hlt : currentTime < totalDuration
    · simp [buildSegmentsAux, segmentsTotalDuration, hlt]
    · have : currentTime = totalDuration := le_antisymm hfit (not_lt.mp hlt)
      simp [buildSegmentsAux, segmentsTotalDuration, hlt, this]
  | cons hd tl ih =>
    intro currentTime hfit
    obtain ⟨insertAt, broll⟩ := hd
    simp only [fitsTimeline, Bool.and_eq_true, decide_eq_true_eq] at hfit
    obtain ⟨hle, hrest⟩ := hfit
    have ihv := ih (insertAt + min broll.duration 4) hrest
    by_cases hgt : insertAt > currentTime
    · simp only [buildSegmentsAux, hgt, if_pos]
      simp only [segmentsTotalDuration, List.map_append, List.map_cons,
        List.sum_append, List.sum_cons, List.map_nil, List.sum_nil] at ihv ⊢
      rw [ihv]
      ring
    · have heq : insertAt = currentTime := le_antisymm (not_lt.mp hgt) hle
      simp only [buildSegmentsAux, hgt, if_neg, not_false_iff]
      simp only [segmentsTotalDuration, List.map_cons, List.sum_cons,
        List.nil_append, List.map_nil] at ihv ⊢
      rw [ihv, heq]
      ring

/-- C1 amended: the segment durations emitted by the composer sum exactly
to `totalDuration` provided the insertion points respect the data-model
invariant `fitsTimeline`: each point lies at or after the cursor left by
the previous (capped) cutaway, and the last cutaway ends at or before
`totalDuration`.  Without that hypothesis the sum can exceed
`totalDuration` (see the counterexample). -/
theorem buildSegments_sum (avatarVideo : String) (brollClips : List BrollClip)
    (insertionPoints : List ℚ) (totalDuration : ℚ)
    (hfit : fitsTimeline 0 totalDuration (insertionPoints.zip brollClips) = true) :
    segmentsTotalDuration
        (buildSegments avatarVideo brollClips insertionPoints totalDuration) =
      totalDuration := by
  unfold buildSegments
  rw [buildSegmentsAux_sum avatarVideo totalDuration _ 0 hfit]
  ring

theorem buildSegments_sum_witness :
    fitsTimeline 0 30
        (([11, 19] : List ℚ).zip
          [⟨"/tmp/broll_0.mp4", 4, "a.mp4"⟩, ⟨"/tmp/broll_1.mp4", 9, "b.mp4"⟩]) = true ∧
      segmentsTotalDuration
          (buildSegments "/tmp/input.mp4"
            [⟨"/tmp/broll_0.mp4", 4, "a.mp4"⟩, ⟨"/tmp/broll_1.mp4", 9, "b.mp4"⟩]
            [11, 19] 30) = 30 := by
  have hfit : fitsTimeline 0 30
      (([11, 19] : List ℚ).zip
        [⟨"/tmp/broll_0.mp4", 4, "a.mp4"⟩, ⟨"/tmp/broll_1.mp4", 9, "b.mp4"⟩]) = true := by
    simp [fitsTimeline, min_def]
    norm_num
  exact ⟨hfit, buildSegments_sum _ _ _ _ hfit⟩

theorem buildSegmentsAux_broll (avatarVideo : String) (totalDuration : ℚ) :
    ∀ (l : List (ℚ × BrollClip)) (currentTime : ℚ),
      (∀ pc ∈ l, 0 ≤ (Prod.snd pc).duration) →
      ∀ seg ∈ buildSegmentsAux avatarVideo totalDuration currentTime l,
        seg.type = SegKind.broll →
        (∃ pc ∈ l, seg.input = (Prod.snd pc).localPath ∧
            seg.duration = min (Prod.snd pc).duration 4) ∧
          0 ≤ seg.duration ∧ seg.duration ≤ 4 := by
  intro l
  induction l with
  | nil =>
    intro currentTime _ seg hseg htype
    simp only [buildSegmentsAux] at hseg
    by_cases hlt : currentTime < totalDuration
    · rw [if_pos hlt] at hseg
      simp only [List.mem_singleton] at hseg
      subst hseg
      simp at htype
    · rw [if_neg hlt] at hseg
      simp at hseg
  | cons hd tl ih =>
    intro currentTime hnn seg hseg htype
    obtain ⟨insertAt, broll⟩ := hd
    have hb : 0 ≤ broll.duration := hnn (insertAt, broll) (List.mem_cons_self _ _)
    simp only [buildSegmentsAux, List.mem_append, List.mem_cons] at hseg
    rcases hseg with hpre | hcur | hrec
    · by_cases hgt : insertAt > currentTime
      · rw [if_pos hgt] at hpre
        simp only [List.mem_singleton] at hpre
        subst hpre
        simp at htype
      · rw [if_neg hgt] at hpre
        simp at hpre
    · subst hcur
      refine ⟨⟨(insertAt, broll), List.mem_cons_self _ _, rfl, rfl⟩, ?_, ?_⟩
      · exact le_min hb (by norm_num)
      · exact min_le_right _ _
    · have := ih (insertAt + min broll.duration 4)
        (fun pc hpc => hnn pc (List.mem_cons_of_mem _ hpc)) seg hrec htype
      obtain ⟨⟨pc, hpc, hin, hdur⟩, h0, h4⟩ := this
      exact ⟨⟨pc, List.mem_cons_of_mem _ hpc, hin, hdur⟩, h0, h4⟩

/-- C7: every cutaway segment emitted by the composer uses duration
`min(natural duration, 4)` of its clip; given that clips report
non-negative natural durations, the used duration is never negative and
never exceeds the 4-second cap. -/
theorem buildSegments_broll_capped (avatarVideo : String)
    (brollClips : List BrollClip) (insertionPoints : List ℚ)
    (totalDuration : ℚ) (hnn : ∀ c ∈ brollClips, 0 ≤ c.duration) :
    ∀ seg ∈ buildSegments avatarVideo brollClips insertionPoints totalDuration,
      seg.type = SegKind.broll →
      (∃ c ∈ brollClips, seg.input = c.localPath ∧
          seg.duration = min c.duration 4) ∧
        0 ≤ seg.duration ∧ seg.duration ≤ 4 := by
  intro seg hseg htype
  have hzip : ∀ pc ∈ insertionPoints.zip brollClips, 0 ≤ (Prod.snd pc).duration := by
    intro pc hpc
    exact hnn _ (List.of_mem_zip hpc).2
  obtain ⟨⟨pc, hpc, hin, hdur⟩, h0, h4⟩ :=
    buildSegmentsAux_broll avatarVideo totalDuration _ 0 hzip seg hseg htype
  exact ⟨⟨pc.2, (List.of_mem_zip hpc).2, hin, hdur⟩, h0, h4⟩

theorem buildSegments_broll_capped_witness :
    (∀ c ∈ [(⟨"/tmp/broll_0.mp4", 9, "a.mp4"⟩ : BrollClip)], 0 ≤ c.duration) ∧
      ((∃ c ∈ [(⟨"/tmp/broll_0.mp4", 9, "a.mp4"⟩ : BrollClip)],
          (Segment.mk SegKind.broll "/tmp/broll_0.mp4" 0 4).input = c.localPath ∧
            (Segment.mk SegKind.broll "/tmp/broll_0.mp4" 0 4).duration =
              min c.duration 4) ∧
        0 ≤ (Segment.mk SegKind.broll "/tmp/broll_0.mp4" 0 4).duration ∧
          (Segment.mk SegKind.broll "/tmp/broll_0.mp4" 0 4).duration ≤ 4) := by
  have hnn : ∀ c ∈ [(⟨"/tmp/broll_0.mp4", 9, "a.mp4"⟩ : BrollClip)],
      0 ≤ c.duration := by
    intro c hc
    simp only [List.mem_singleton] at hc
    subst hc
    norm_num
  refine ⟨hnn, ?_⟩
  refine buildSegments_broll_capped "/tmp/input.mp4"
    [⟨"/tmp/broll_0.mp4", 9, "a.mp4"⟩] [11] 30 hnn
    (Segment.mk SegKind.broll "/tmp/broll_0.mp4" 0 4) ?_ rfl
  have : buildSegments "/tmp/input.mp4" [⟨"/tmp/broll_0.mp4", 9, "a.mp4"⟩] [11] 30 =
      [⟨SegKind.avatar, "/tmp/input.mp4", 0, 11⟩,
       ⟨SegKind.broll, "/tmp/broll_0.mp4", 0, 4⟩,
       ⟨SegKind.avatar, "/tmp/input.mp4", 15, 15⟩] := by
    simp [buildSegments, buildSegmentsAux, min_def]
    norm_num
  rw [this]
  simp

/-- C1 counterexample: take `totalDuration = 10` and `count = 4`, a valid
scheduler run (`usable = 4 > 0`), with four cutaway clips of natural
duration 4 (= the cap).  The scheduler returns points only `0.8` apart,
the cursor overshoots every later point, and the emitted segment durations
sum to `99/5 = 19.8 ≠ 10`: the cutaways extend the timeline instead of
replacing primary time. -/
theorem buildSegments_sum_counterexample :
    segmentsTotalDuration
        (buildSegments "/tmp/input.mp4"
          [⟨"/tmp/broll_0.mp4", 4, "a.mp4"⟩, ⟨"/tmp/broll_1.mp4", 4, "b.mp4"⟩,
           ⟨"/tmp/broll_2.mp4", 4, "c.mp4"⟩, ⟨"/tmp/broll_3.mp4", 4, "d.mp4"⟩]
          (calculateInsertionPoints 10 4) 10) = 99 / 5 ∧
      (99 / 5 : ℚ) ≠ 10 := by
  constructor
  · have hpts : calculateInsertionPoints 10 4 = [19/5, 23/5, 27/5, 31/5] := by
      simp [calculateInsertionPoints, List.range_succ]
      norm_num
    rw [hpts]
    simp [buildSegments, buildSegmentsAux, segmentsTotalDuration, min_def]
    norm_num
  · norm_num

/-! Caption Cue Builder — `createSRTFile` of src/index.js, lines 306-331. -/

/-- One word of the Whisper transcription: `{ word, start, end }`, times in
seconds. -/
structure TranscriptWord where
  word : String
  start : ℚ
  «end» : ℚ
deriving DecidableEq

/-- The consecutive 3-word chunks walked by the `for (i += 3)` loop of
`createSRTFile` (src/index.js lines 306-322): `words.slice(i, i + 3)`. -/
def srtChunks : List TranscriptWord → List (List TranscriptWord)
  | [] => []
  | w :: ws => (w :: ws.take 2) :: srtChunks (ws.drop 2)
termination_by l => l.length
decreasing_by simp; omega

theorem srtChunks_flatten : ∀ ws : List TranscriptWord,
    (srtChunks ws).flatten = ws := by
  intro ws
  induction ws using srtChunks.induct with
  | case1 => simp [srtChunks]
  | case2 w ws ih =>
    rw [srtChunks]
    simp only [List.flatten_cons, ih, List.cons_append]
    rw [List.take_append_drop]

theorem srtChunks_length : ∀ ws : List TranscriptWord,
    (srtChunks ws).length = (ws.length + 2) / 3 := by
  intro ws
  induction ws using srtChunks.induct with
  | case1 => simp [srtChunks]
  | case2 w ws ih =>
    rw [srtChunks]
    simp only [List.length_cons, ih, List.length_drop]
    omega

/-- One caption cue of the spec's data model, carrying the values the SRT
entry is rendered from: 1-based `index`, the first word's `start`, the last
word's `end`, and the chunk's words joined with single spaces. -/
structure CaptionCue where
  index : ℕ
  start : ℚ
  «end» : ℚ
  text : String
deriving DecidableEq

/-- The cue built for each chunk of `createSRTFile` (src/index.js): the JS
loop carries the mutable counter `index`, modelled as an explicit
argument starting at 1.  `chunk[0].start` is the head's `start`;
`chunk[chunk.length - 1].end` is the last element's `end`. -/
def createCuesAux : ℕ → List TranscriptWord → List CaptionCue
  | _, [] => []
  | idx, w :: ws =>
    { index := idx,
      start := w.start,
      «end» := ((w :: ws.take 2).getLast (List.cons_ne_nil w _)).«end»,
      text := joinSep " " ((w :: ws.take 2).map TranscriptWord.word) } ::
    createCuesAux (idx + 1) (ws.drop 2)
termination_by _ l => l.length
decreasing_by simp; omega

/-- The cue sequence produced by `createSRTFile`, starting at index 1. -/
def createSRTCues (words : List TranscriptWord) : List CaptionCue :=
  createCuesAux 1 words

theorem createCuesAux_length (ws : List TranscriptWord) : ∀ idx : ℕ,
    (createCuesAux idx ws).length = (srtChunks ws).length := by
  induction ws using srtChunks.induct with
  | case1 => intro idx; simp [createCuesAux, srtChunks]
  | case2 w ws ih =>
    intro idx
    rw [createCuesAux, srtChunks]
    simp only [List.length_cons, ih (idx + 1)]

theorem createCuesAux_index (ws : List TranscriptWord) : ∀ idx : ℕ,
    (createCuesAux idx ws).map CaptionCue.index =
      List.range' idx (createCuesAux idx ws).length := by
  induction ws using srtChunks.induct with
  | case1 => intro idx; simp [createCuesAux]
  | case2 w ws ih =>
    intro idx
    rw [createCuesAux]
    simp only [List.map_cons, List.length_cons, ih (idx + 1),
      createCuesAux_length]
    rw [List.range'_succ]

theorem createCuesAux_text (ws : List TranscriptWord) : ∀ idx : ℕ,
    (createCuesAux idx ws).map CaptionCue.text =
      (srtChunks ws).map fun c => joinSep " " (c.map TranscriptWord.word) := by
  induction ws using srtChunks.induct with
  | case1 => intro idx; simp [createCuesAux, srtChunks]
  | case2 w ws ih =>
    intro idx
    rw [createCuesAux, srtChunks]
    simp only [List.map_cons, ih (idx + 1)]

theorem joinSep_append (sep : String) :
    ∀ (a b : List String), a ≠ [] → b ≠ [] →
      joinSep sep (a ++ b) = joinSep sep a ++ sep ++ joinSep sep b := by
  intro a
  induction a with
  | nil => intro b ha _; exact absurd rfl ha
  | cons x xs ih =>
    intro b _ hb
    cases xs with
    | nil =>
      cases b with
      | nil => exact absurd rfl hb
      | cons y ys => simp [joinSep]
    | cons x' xs' =>
      have := ih b (by simp) hb
      simp only [List.cons_append, List.append_eq, joinSep] at this ⊢
      rw [this]
      simp [String.append_assoc]

theorem joinSep_flatten (sep : String) :
    ∀ (l : List (List String)), (∀ c ∈ l, c ≠ []) →
      joinSep sep (l.map (joinSep sep)) = joinSep sep l.flatten := by
  intro l
  induction l with
  | nil => intro _; simp [joinSep]
  | cons c t ih =>
    intro hne
    have hc : c ≠ [] := hne c (List.mem_cons_self _ _)
    cases t with
    | nil => simp [joinSep]
    | cons c' t' =>
      have hc' : c' ≠ [] := hne c' (List.mem_cons_of_mem _ (List.mem_cons_self _ _))
      have hflat : c' ++ t'.flatten ≠ [] := by
        cases c' with
        | nil => exact absurd rfl hc'
        | cons y ys => simp
      have iht := ih fun d hd => hne d (List.mem_cons_of_mem _ hd)
      simp only [List.map_cons, joinSep, List.flatten_cons] at iht ⊢
      rw [iht]
      rw [joinSep_append sep c (c' ++ t'.flatten) hc hflat]

theorem srtChunks_sizes : ∀ ws : List TranscriptWord,
    ∀ c ∈ srtChunks ws, 1 ≤ c.length ∧ c.length ≤ 3 := by
  intro ws
  induction ws using srtChunks.induct with
  | case1 => simp [srtChunks]
  | case2 w ws ih =>
    rw [srtChunks]
    intro c hc
    rcases List.mem_cons.mp hc with rfl | hc
    · have := List.length_take_le 2 ws
      simp only [List.length_cons]
      omega
    · exact ih c hc

/-- C4: with `chunkSize = 3`, `createSRTFile` partitions the words into
consecutive chunks of 3 (the last chunk has size 1..3 and is never
dropped), producing exactly `⌈wordCount / 3⌉ = (wordCount + 2) / 3` cues
with indices `1, 2, 3, ...` in order; each cue's text is its words' texts
joined with a single space, so the space-joined concatenation of all cue
texts reproduces every original word in order; the empty word list yields
the empty cue sequence. -/
theorem createSRTCues_spec : ∀ words : List TranscriptWord,
    (createSRTCues words).length = (words.length + 2) / 3 ∧
    (createSRTCues words).map CaptionCue.index =
      List.range' 1 ((words.length + 2) / 3) ∧
    (srtChunks words).flatten = words ∧
    (∀ c ∈ srtChunks words, 1 ≤ c.length ∧ c.length ≤ 3) ∧
    joinSep " " ((createSRTCues words).map CaptionCue.text) =
      joinSep " " (words.map TranscriptWord.word) ∧
    createSRTCues [] = [] := by
  intro words
  have hlen : (createSRTCues words).length = (words.length + 2) / 3 := by
    rw [createSRTCues, createCuesAux_length words 1, srtChunks_length]
  refine ⟨hlen, ?_, srtChunks_flatten words, srtChunks_sizes words, ?_,
    by simp [createSRTCues, createCuesAux]⟩
  · rw [createSRTCues, createCuesAux_index words 1, ← createSRTCues, hlen]
  · rw [createSRTCues, createCuesAux_text words 1]
    have hchunks : ∀ c ∈ (srtChunks words).map (List.map TranscriptWord.word),
        c ≠ [] := by
      intro c hc
      simp only [List.mem_map] at hc
      obtain ⟨d, hd, rfl⟩ := hc
      have h1 := (srtChunks_sizes words d hd).1
      intro hnil
      rw [List.map_eq_nil_iff] at hnil
      subst hnil
      simp at h1
    rw [show ((srtChunks words).map fun c => joinSep " " (c.map TranscriptWord.word)) =
        ((srtChunks words).map (List.map TranscriptWord.word)).map (joinSep " ") by
      rw [List.map_map]; rfl]
    rw [joinSep_flatten " " _ hchunks]
    congr 1
    rw [← List.map_flatten, srtChunks_flatten]

theorem createSRTCues_spec_witness :
    (createSRTCues
        [⟨"seven", 0, 1⟩, ⟨"words", 1, 2⟩, ⟨"of", 2, 3⟩, ⟨"caption", 3, 4⟩,
         ⟨"text", 4, 5⟩, ⟨"to", 5, 6⟩, ⟨"chunk", 6, 7⟩]).length = 3 ∧
      (createSRTCues
          [⟨"seven", 0, 1⟩, ⟨"words", 1, 2⟩, ⟨"of", 2, 3⟩, ⟨"caption", 3, 4⟩,
           ⟨"text", 4, 5⟩, ⟨"to", 5, 6⟩, ⟨"chunk", 6, 7⟩]).map CaptionCue.index =
        List.range' 1 3 :=
  ⟨(createSRTCues_spec _).1, (createSRTCues_spec _).2.1⟩

/-! Time-code formatting — `formatTimestamp` of src/index.js, lines 325-331. -/

theorem jsmod_of_nonneg (a b : ℚ) (ha : 0 ≤ a) (hb : 0 < b) :
    jsmod a b = a - b * ⌊a / b⌋ := by
  unfold jsmod jstrunc
  rw [if_pos (div_nonneg ha hb.le)]

theorem jsmod_nonneg (a b : ℚ) (ha : 0 ≤ a) (hb : 0 < b) : 0 ≤ jsmod a b := by
  rw [jsmod_of_nonneg a b ha hb, mul_comm]
  exact Int.sub_floor_div_mul_nonneg a hb

theorem jsmod_lt (a b : ℚ) (ha : 0 ≤ a) (hb : 0 < b) : jsmod a b < b := by
  rw [jsmod_of_nonneg a b ha hb, mul_comm]
  exact Int.sub_floor_div_mul_lt a hb

/-- Floor of a rational divided by a positive integer collapses to integer
division of the floor. -/
theorem rat_floor_intCast_div (a : ℚ) (m : ℤ) (hm : 0 < m) :
    ⌊a / (m : ℚ)⌋ = ⌊a⌋ / m := by
  have hmq : (0:ℚ) < (m : ℚ) := by exact_mod_cast hm
  apply le_antisymm
  · rw [Int.le_ediv_iff_mul_le hm, Int.le_floor]
    push_cast
    exact (le_div_iff₀ hmq).mp (Int.floor_le (a / (m : ℚ)))
  · rw [Int.le_floor]
    rw [le_div_iff₀ hmq]
    have h1 : ⌊a⌋ / m * m ≤ ⌊a⌋ := Int.ediv_mul_le ⌊a⌋ hm.ne'
    calc ((⌊a⌋ / m : ℤ) : ℚ) * (m : ℚ) = ((⌊a⌋ / m * m : ℤ) : ℚ) := by push_cast; ring
    _ ≤ ((⌊a⌋ : ℤ) : ℚ) := by exact_mod_cast h1
    _ ≤ a := Int.floor_le a

/-- `formatTimestamp(seconds)` from src/index.js: the JS local constants
`hours`, `minutes`, `secs`, `millis` are inlined into the final template
string `HH:MM:SS,mmm`. -/
def formatTimestamp (seconds : ℚ) : String :=
  padStart (toString ⌊seconds / 3600⌋) 2 '0' ++ ":" ++
  padStart (toString ⌊jsmod seconds 3600 / 60⌋) 2 '0' ++ ":" ++
  padStart (toString ⌊jsmod seconds 60⌋) 2 '0' ++ "," ++
  padStart (toString ⌊jsmod seconds 1 * 1000⌋) 3 '0'

/-- C5: for every non-negative number of seconds, `formatTimestamp` renders
the truncated total number of milliseconds `⌊1000 * s⌋` in the layout
`HH:MM:SS,mmm` — hours, minutes, seconds zero-padded to width 2 and
milliseconds to width 3, fractional seconds truncated (not rounded) to
whole milliseconds. -/
theorem formatTimestamp_spec (s : ℚ) (hs : 0 ≤ s) :
    formatTimestamp s =
      padStart (toString (⌊1000 * s⌋ / 3600000)) 2 '0' ++ ":" ++
      padStart (toString (⌊1000 * s⌋ / 60000 % 60)) 2 '0' ++ ":" ++
      padStart (toString (⌊1000 * s⌋ / 1000 % 60)) 2 '0' ++ "," ++
      padStart (toString (⌊1000 * s⌋ % 1000)) 3 '0' := by
  have h3600 : ⌊s / 3600⌋ = ⌊1000 * s⌋ / 3600000 := by
    rw [show s / 3600 = 1000 * s / ((3600000 : ℤ) : ℚ) by push_cast; ring]
    exact rat_floor_intCast_div (1000 * s) 3600000 (by norm_num)
  have h60 : ⌊s / 60⌋ = ⌊1000 * s⌋ / 60000 := by
    rw [show s / 60 = 1000 * s / ((60000 : ℤ) : ℚ) by push_cast; ring]
    exact rat_floor_intCast_div (1000 * s) 60000 (by norm_num)
  have h1 : ⌊s⌋ = ⌊1000 * s⌋ / 1000 := by
    rw [show s = 1000 * s / ((1000 : ℤ) : ℚ) by push_cast; ring]
    rw [show (1000:ℚ) * (1000 * s / ((1000 : ℤ) : ℚ)) = 1000 * s by push_cast; ring]
    exact rat_floor_intCast_div (1000 * s) 1000 (by norm_num)
  have hminutes : ⌊jsmod s 3600 / 60⌋ = ⌊1000 * s⌋ / 60000 % 60 := by
    rw [jsmod_of_nonneg s 3600 hs (by norm_num)]
    rw [show (s - 3600 * (⌊s / 3600⌋ : ℚ)) / 60 =
        s / 60 - ((60 * ⌊s / 3600⌋ : ℤ) : ℚ) by push_cast; ring]
    rw [Int.floor_sub_int, h60, h3600]
    omega
  have hsecs : ⌊jsmod s 60⌋ = ⌊1000 * s⌋ / 1000 % 60 := by
    rw [jsmod_of_nonneg s 60 hs (by norm_num)]
    rw [show s - 60 * (⌊s / 60⌋ : ℚ) = s - ((60 * ⌊s / 60⌋ : ℤ) : ℚ) by push_cast; ring]
    rw [Int.floor_sub_int, h60, h1]
    omega
  have hmillis : ⌊jsmod s 1 * 1000⌋ = ⌊1000 * s⌋ % 1000 := by
    rw [jsmod_of_nonneg s 1 hs (by norm_num)]
    rw [show (s - 1 * (⌊s / 1⌋ : ℚ)) * 1000 =
        1000 * s - ((1000 * ⌊s / 1⌋ : ℤ) : ℚ) by push_cast; ring]
    rw [Int.floor_sub_int]
    rw [show s / 1 = s by ring, h1]
    omega
  rw [formatTimestamp, h3600, hminutes, hsecs, hmillis]

theorem formatTimestamp_spec_witness :
    0 ≤ (37254567 / 10000 : ℚ) ∧
      formatTimestamp (37254567 / 10000) = "01:02:05,456" := by
  refine ⟨by norm_num, ?_⟩
  rw [formatTimestamp_spec (37254567 / 10000) (by norm_num)]
  have h : ⌊(1000 : ℚ) * (37254567 / 10000)⌋ = 3725456 := by norm_num
  rw [h]
  decide

/-! Caption file serialization — the `srtEntries.push` / `join('\n')` part
of `createSRTFile` (src/index.js lines 306-322). -/

/-- The block rendered for one cue, without its trailing newline:
`index\nHH:MM:SS,mmm --> HH:MM:SS,mmm\ntext`. -/
def cueCore (c : CaptionCue) : String :=
  toString c.index ++ "\n" ++ formatTimestamp c.start ++ " --> " ++
    formatTimestamp c.«end» ++ "\n" ++ c.text

/-- The entry pushed for one cue, exactly the JS template string
`index\nstart --> end\ntext\n`. -/
def cueBlock (c : CaptionCue) : String :=
  cueCore c ++ "\n"

/-- The `srtEntries` array built by the loop of `createSRTFile`, with the
mutable `index` counter as an explicit argument. -/
def srtEntriesAux : ℕ → List TranscriptWord → List String
  | _, [] => []
  | idx, w :: ws =>
    (toString idx ++ "\n" ++ formatTimestamp w.start ++ " --> " ++
      formatTimestamp (((w :: ws.take 2).getLast (List.cons_ne_nil w _)).«end») ++
      "\n" ++ joinSep " " ((w :: ws.take 2).map TranscriptWord.word) ++ "\n") ::
    srtEntriesAux (idx + 1) (ws.drop 2)
termination_by _ l => l.length
decreasing_by simp; omega

/-- `createSRTFile` of src/index.js: the content written to the .srt file,
`srtEntries.join('\n')` (the `fs.writeFileSync` sink is outside the
embedding; the function returns the file content). -/
def createSRTFile (words : List TranscriptWord) : String :=
  joinSep "\n" (srtEntriesAux 1 words)

theorem srtEntriesAux_eq (ws : List TranscriptWord) : ∀ idx : ℕ,
    srtEntriesAux idx ws = (createCuesAux idx ws).map cueBlock := by
  induction ws using srtChunks.induct with
  | case1 => intro idx; simp [srtEntriesAux, createCuesAux]
  | case2 w ws ih =>
    intro idx
    rw [srtEntriesAux, createCuesAux]
    simp only [List.map_cons, ih (idx + 1)]
    congr 1

theorem joinSep_map_append_sep (sep : String) :
    ∀ l : List String, l ≠ [] →
      joinSep sep (l.map (· ++ sep)) = joinSep (sep ++ sep) l ++ sep := by
  intro l
  induction l with
  | nil => intro h; exact absurd rfl h
  | cons x xs ih =>
    intro _
    cases xs with
    | nil => simp [joinSep]
    | cons y ys =>
      have h := ih (by simp)
      simp only [List.map_cons, joinSep] at h ⊢
      rw [h]
      simp [String.append_assoc]

/-- C6: for every non-empty word list, the serialized caption file is
exactly the blocks `index\nHH:MM:SS,mmm --> HH:MM:SS,mmm\ntext\n`, one per
cue in cue order, with consecutive blocks separated by a blank line
(equivalently: the newline-terminated blocks joined by a single newline,
or the blocks without trailing newline joined by `\n\n` with one final
newline). -/
theorem createSRTFile_layout (words : List TranscriptWord) (hne : words ≠ []) :
    createSRTFile words =
      joinSep "\n" ((createSRTCues words).map cueBlock) ∧
    createSRTFile words =
      joinSep "\n\n" ((createSRTCues words).map cueCore) ++ "\n" := by
  have h1 : createSRTFile words = joinSep "\n" ((createSRTCues words).map cueBlock) := by
    rw [createSRTFile, createSRTCues, srtEntriesAux_eq words 1]
  refine ⟨h1, ?_⟩
  rw [h1]
  have hcne : (createSRTCues words).map cueCore ≠ [] := by
    cases words with
    | nil => exact absurd rfl hne
    | cons w ws =>
      rw [createSRTCues, createCuesAux]
      simp
  have h2 := joinSep_map_append_sep "\n" ((createSRTCues words).map cueCore) hcne
  rw [show (createSRTCues words).map cueBlock =
      ((createSRTCues words).map cueCore).map (· ++ "\n") by
    rw [List.map_map]; rfl]
  rw [h2]
  have hsep : ("\n" ++ "\n" : String) = "\n\n" := by decide
  rw [hsep]

theorem createSRTFile_layout_witness :
    ([⟨"Hello", 0, 1⟩, ⟨"world", 1, 2⟩] : List TranscriptWord) ≠ [] ∧
      createSRTFile [⟨"Hello", 0, 1⟩, ⟨"world", 1, 2⟩] =
        joinSep "\n"
          ((createSRTCues [⟨"Hello", 0, 1⟩, ⟨"world", 1, 2⟩]).map cueBlock) :=
  ⟨by simp, (createSRTFile_layout _ (by simp)).1⟩

/-! Temporal Effect Parameterizer — the `zoompan` expression of the
`includeZoom` branch (src/index.js lines 99-105, identical in the second
half of src/unnamed/part_003 lines 495-501). -/

/-- The zoom expression
`z='if(lt(mod(time,10),0.3), 1+(mod(time,10)/0.3)*0.15,
    if(lt(mod(time,10),5), 1.15,
    if(lt(mod(time,10),5.3), 1.15-((mod(time,10)-5)/0.3)*0.15, 1)))'`
with `0.3 = 3/10`, `0.15 = 15/100`, `1.15 = 115/100`, `5.3 = 53/10`. -/
def zoomScale (t : ℚ) : ℚ :=
  if jsmod t 10 < 3/10 then 1 + jsmod t 10 / (3/10) * (15/100)
  else if jsmod t 10 < 5 then 115/100
  else if jsmod t 10 < 53/10 then 115/100 - (jsmod t 10 - 5) / (3/10) * (15/100)
  else 1

/-- The effect frame of the spec's data model, read off the same filter:
`scale` is the zoom expression; the `x` expression is
`anchorX * iw - (iw / zoom) / 2` with `anchorX` cycling over a 30-second
period through `1/2` (`iw/2`), `0.55` (`iw*0.55`) and `0.45` (`iw*0.45`);
the `y` expression is `anchorY * ih - (ih / zoom) / 2` with fixed
`anchorY = 1/3` (`ih/3`). -/
structure EffectFrame where
  scale : ℚ
  anchorX : ℚ
  anchorY : ℚ
deriving DecidableEq

def effectAt (t : ℚ) : EffectFrame :=
  { scale := zoomScale t,
    anchorX :=
      if jsmod t 30 < 10 then 1/2
      else if jsmod t 30 < 20 then 55/100
      else 45/100,
    anchorY := 1/3 }

/-- C8 counterexample: at `t = 7` we have `m = t mod 10 = 7`, which lies
between `rampIn = 0.3` and `10 - rampOut = 9.7`, so the claim says the
zoom should hold at `1 + Δ = 1.15`; the code yields `1`.  The hold in the
code ends at `m = 5`, not at `10 - rampOut`. -/
theorem zoomScale_counterexample :
    zoomScale 7 = 1 ∧ (1 : ℚ) ≠ 115/100 := by
  constructor
  · have hm : jsmod 7 10 = 7 := by
      unfold jsmod jstrunc
      norm_num
    rw [zoomScale, hm]
    norm_num
  · norm_num

/-- C8 amended: with `m = t mod 10`, the zoom scale ramps linearly from
1.0 towards `1 + Δ` (Δ = 0.15) over the first `rampIn = 0.3` seconds of
the 10-second cycle, holds at `1 + Δ = 1.15` from `0.3` until `5`, ramps
linearly back to 1.0 over `[5, 5.3)`, and stays at 1.0 for the remaining
`4.7` seconds of the cycle (not until `10 - rampOut` as originally
claimed).  On each branch the scale stays within `[1, 1.15]`. -/
theorem zoomScale_cycle (t : ℚ) (ht : 0 ≤ t) :
    (0 ≤ jsmod t 10 ∧ jsmod t 10 < 10) ∧
    (jsmod t 10 < 3/10 →
      zoomScale t = 1 + jsmod t 10 / (3/10) * (15/100) ∧
      1 ≤ zoomScale t ∧ zoomScale t < 115/100) ∧
    (3/10 ≤ jsmod t 10 → jsmod t 10 < 5 → zoomScale t = 115/100) ∧
    (5 ≤ jsmod t 10 → jsmod t 10 < 53/10 →
      zoomScale t = 115/100 - (jsmod t 10 - 5) / (3/10) * (15/100) ∧
      1 < zoomScale t ∧ zoomScale t ≤ 115/100) ∧
    (53/10 ≤ jsmod t 10 → zoomScale t = 1) := by
  have hm0 : 0 ≤ jsmod t 10 := jsmod_nonneg t 10 ht (by norm_num)
  have hm10 : jsmod t 10 < 10 := jsmod_lt t 10 ht (by norm_num)
  refine ⟨⟨hm0, hm10⟩, ?_, ?_, ?_, ?_⟩
  · intro h
    have heq : zoomScale t = 1 + jsmod t 10 / (3/10) * (15/100) := by
      rw [zoomScale, if_pos h]
    refine ⟨heq, ?_, ?_⟩
    · rw [heq]
      have h2 : jsmod t 10 / (3/10) * (15/100) = jsmod t 10 / 2 := by ring
      rw [h2]
      linarith
    · rw [heq]
      have h2 : jsmod t 10 / (3/10) * (15/100) = jsmod t 10 / 2 := by ring
      rw [h2]
      linarith
  · intro h1 h2
    rw [zoomScale, if_neg (by linarith), if_pos h2]
  · intro h1 h2
    have heq : zoomScale t = 115/100 - (jsmod t 10 - 5) / (3/10) * (15/100) := by
      rw [zoomScale, if_neg (by linarith), if_neg (by linarith), if_pos h2]
    have h3 : (jsmod t 10 - 5) / (3/10) * (15/100) = (jsmod t 10 - 5) / 2 := by
      ring
    refine ⟨heq, ?_, ?_⟩
    · rw [heq, h3]; linarith
    · rw [heq, h3]; linarith
  · intro h
    rw [zoomScale, if_neg (by linarith), if_neg (by linarith),
      if_neg (by linarith)]

theorem zoomScale_cycle_witness :
    0 ≤ (7:ℚ) ∧ 0 ≤ jsmod 7 10 ∧ jsmod 7 10 < 10 :=
  ⟨by norm_num, (zoomScale_cycle 7 (by norm_num)).1⟩

/-- C9: for every playback time `t ≥ 0` the effect mapping keeps the zoom
scale within `[1, 1.15]` and both anchor fractions within `[0, 1]` of the
relevant frame dimension. -/
theorem effectAt_safe (t : ℚ) (ht : 0 ≤ t) :
    1 ≤ (effectAt t).scale ∧ (effectAt t).scale ≤ 115/100 ∧
    0 ≤ (effectAt t).anchorX ∧ (effectAt t).anchorX ≤ 1 ∧
    0 ≤ (effectAt t).anchorY ∧ (effectAt t).anchorY ≤ 1 := by
  have hm0 : 0 ≤ jsmod t 10 := jsmod_nonneg t 10 ht (by norm_num)
  have hm10 : jsmod t 10 < 10 := jsmod_lt t 10 ht (by norm_num)
  have hscale : 1 ≤ zoomScale t ∧ zoomScale t ≤ 115/100 := by
    rw [zoomScale]
    split_ifs with h1 h2 h3
    · have h2 : jsmod t 10 / (3/10) * (15/100) = jsmod t 10 / 2 := by ring
      rw [h2]
      constructor <;> linarith
    · constructor <;> norm_num
    · have h4 : (jsmod t 10 - 5) / (3/10) * (15/100) = (jsmod t 10 - 5) / 2 := by
        ring
      rw [h4]
      push_neg at h2
      constructor <;> linarith
    · constructor <;> norm_num
  have hax : 0 ≤ (effectAt t).anchorX ∧ (effectAt t).anchorX ≤ 1 := by
    rw [effectAt]
    simp only
    split_ifs <;> constructor <;> norm_num
  refine ⟨hscale.1, hscale.2, hax.1, hax.2, ?_, ?_⟩ <;>
    · rw [effectAt]
      norm_num

theorem effectAt_safe_witness :
    0 ≤ (0:ℚ) ∧ 1 ≤ (effectAt 0).scale ∧ (effectAt 0).scale ≤ 115/100 :=
  ⟨le_refl 0, (effectAt_safe 0 (le_refl 0)).1, (effectAt_safe 0 (le_refl 0)).2.1⟩

/-! Random clip selection — `getRandomBrollClips` (src/index.js
lines 157-206, identical in src/unnamed/part_003 lines 562-611). -/

/-- One object of the S3 `listObjectsV2` response's `Contents`. -/
structure S3Object where
  Key : String
deriving DecidableEq

/-- JavaScript `String.prototype.endsWith`, modelled on the character
sequence of the string. -/
def jsEndsWith (s post : String) : Bool :=
  post.data.isSuffixOf s.data

/-- The filter of `getRandomBrollClips`:
`obj.Key.endsWith('.mp4') || obj.Key.endsWith('.mov')`. -/
def isVideoFile (o : S3Object) : Bool :=
  jsEndsWith o.Key ".mp4" || jsEndsWith o.Key ".mov"

/-- `getRandomBrollClips(count, tmpDir)` with its effects made explicit:
`contents` is the bucket listing (`listResponse.Contents`), `shuffled`
stands for the result of `videoFiles.sort(() => 0.5 - Math.random())`
(an unspecified permutation of the filtered list, supplied as an
argument), and `getDur` stands for `getVideoDuration` probing the
downloaded file.  The guard mirrors
`if (!listResponse.Contents || listResponse.Contents.length === 0) throw`;
the download loop writes clip `i` to `/tmp/broll_i.mp4` and records its
duration and source key. -/
def getRandomBrollClips (count : ℕ) (contents : List S3Object)
    (shuffled : List S3Object) (getDur : String → ℚ) :
    Except String (List BrollClip) :=
  if contents.length = 0 then
    .error "No B-roll clips found in S3 bucket"
  else
    let videoFiles := contents.filter isVideoFile
    let selected := shuffled.take (min count videoFiles.length)
    .ok (selected.mapIdx fun i o =>
      { localPath := "/tmp/broll_" ++ toString i ++ ".mp4",
        duration := getDur ("/tmp/broll_" ++ toString i ++ ".mp4"),
        key := o.Key })

/-- C10 counterexample: for an empty library listing the selector does not
return `min(count, 0) = 0` clips; it fails with an error instead. -/
theorem getRandomBrollClips_empty_error :
    getRandomBrollClips 1 [] [] (fun _ => 0) =
        .error "No B-roll clips found in S3 bucket" ∧
      (Except.error "No B-roll clips found in S3 bucket" :
          Except String (List BrollClip)) ≠ .ok [] := by
  constructor
  · rw [getRandomBrollClips]
    simp
  · intro h
    exact Except.noConfusion h

/-- C10 amended: for every requested `count ≥ 1` and every non-empty
library listing, the selector returns exactly
`min(count, number of objects whose key ends in .mp4 or .mov)` clips —
possibly fewer than `count` when the library is smaller than the request;
an empty listing raises an error instead of returning zero clips (see the
counterexample). -/
theorem getRandomBrollClips_count (count : ℕ) (contents shuffled : List S3Object)
    (getDur : String → ℚ) (_hc : 1 ≤ count) (hne : contents ≠ [])
    (hperm : shuffled.Perm (contents.filter isVideoFile)) :
    ∃ clips, getRandomBrollClips count contents shuffled getDur = .ok clips ∧
      clips.length = min count (contents.filter isVideoFile).length := by
  rw [getRandomBrollClips]
  rw [if_neg (by simpa using hne)]
  refine ⟨_, rfl, ?_⟩
  rw [List.length_mapIdx, List.length_take, hperm.length_eq]
  exact min_eq_left (min_le_right _ _)

theorem getRandomBrollClips_count_witness :
    1 ≤ 1 ∧ ([⟨"a.mp4"⟩] : List S3Object) ≠ [] ∧
      ∃ clips,
        getRandomBrollClips 1 [⟨"a.mp4"⟩] [⟨"a.mp4"⟩] (fun _ => 2) = .ok clips ∧
          clips.length =
            min 1 (([⟨"a.mp4"⟩] : List S3Object).filter isVideoFile).length := by
  have hf : ([⟨"a.mp4"⟩] : List S3Object).filter isVideoFile = [⟨"a.mp4"⟩] := by
    decide
  refine ⟨le_refl 1, by simp, ?_⟩
  exact getRandomBrollClips_count 1 [⟨"a.mp4"⟩] [⟨"a.mp4"⟩] (fun _ => 2)
    (le_refl 1) (by simp) (by rw [hf])
